import Mathlib

set_option maxRecDepth 10000

/-!
Verification of the motioncam-decoder sources against their specification.

The development shallowly embeds the three source files:

* `src/lib/RawData.cpp` — the bit-packed block codec (`Decode0` … `Decode16`,
  `decodeTable`, `ENCODING_BLOCK_LEN`, `DecodeBlock`), the metadata-stream
  decoder (`DecodeMetadata`) and the frame decoder (`Decode`).
* `src/mcraw-mounter-fuse.cpp` — the FIFO frame cache (`cacheInsert`), the
  `fs_open` callback (`fs_open_multi`) and the byte-range copy of `fs_read`.
* `src/example.cpp` — the single-capture variant of `fs_open`
  (`fs_open_single`); its cache and `fs_read` logic coincide with the
  multi-capture variant up to the capacity constant.

Byte buffers are embedded as total functions `Nat → Nat`; every read goes
through `byte`, which reduces modulo 256 exactly as a `uint8_t` load does.
16-bit stores reduce modulo 65536 where the C code can wrap (`+= ref`,
`p + r` into a `uint16_t`).  All definitions are executable.
-/

/-- Read one byte of a buffer, as the `uint8_t` loads of the source do. -/
def byte (f : Nat → Nat) (i : Nat) : Nat := f i % 256

/-- Little-endian 32-bit read, as in `ReadMetadataHeader` / `DecodeMetadata`
(`in[0] | in[1] << 8 | in[2] << 16 | in[3] << 24`). -/
def readU32 (f : Nat → Nat) (i : Nat) : Nat :=
  byte f i ||| byte f (i + 1) <<< 8 ||| byte f (i + 2) <<< 16 ||| byte f (i + 3) <<< 24

/-- `ENCODING_BLOCK_LEN` from RawData.cpp: bytes consumed by one 64-value
block at each bit-width 0..16.  Indices beyond 16 are out of bounds in the
source array; the embedding's `getD` default 0 marks that undefined case. -/
def ENCODING_BLOCK_LEN : List Nat :=
  [0, 8, 16, 24, 32, 40, 48, 64, 64, 80, 80, 128, 128, 128, 128, 128, 128]

/-- `Decode0`: bits = 0, sixty-four zeros, no input consumed. -/
def Decode0 (_f : Nat → Nat) : List Nat := List.replicate 64 0

/-- `Decode1`: output lane `8*k + j` holds bit `k` of input byte `j`. -/
def Decode1 (f : Nat → Nat) : List Nat :=
  (List.range 64).map fun i => (byte f (i % 8) >>> (i / 8)) &&& 1

/-- `Decode2`: two 8-byte sub-groups, four 2-bit fields per byte. -/
def Decode2 (f : Nat → Nat) : List Nat :=
  (List.range 64).map fun i =>
    (byte f (8 * (i / 32) + i % 8) >>> (2 * (i / 8 % 4))) &&& 3

/-- `Decode3`: 3-bit fields from byte groups p0..p2, with the third and sixth
output groups rebuilt from the high bits of p0/p1 and p2. -/
def Decode3 (f : Nat → Nat) : List Nat :=
  (List.range 64).map fun i =>
    match i / 8 with
    | 0 => byte f (i % 8) &&& 7
    | 1 => (byte f (i % 8) >>> 3) &&& 7
    | 2 => ((byte f (i % 8) >>> 6) &&& 3) ||| (((byte f (16 + i % 8) >>> 6) &&& 1) <<< 2)
    | 3 => byte f (8 + i % 8) &&& 7
    | 4 => (byte f (8 + i % 8) >>> 3) &&& 7
    | 5 => ((byte f (8 + i % 8) >>> 6) &&& 3) ||| (((byte f (16 + i % 8) >>> 7) &&& 1) <<< 2)
    | 6 => byte f (16 + i % 8) &&& 7
    | _ => (byte f (16 + i % 8) >>> 3) &&& 7

/-- `Decode4`: four 8-byte sub-groups, two 4-bit fields per byte. -/
def Decode4 (f : Nat → Nat) : List Nat :=
  (List.range 64).map fun i =>
    (byte f (8 * (i / 16) + i % 8) >>> (4 * (i / 8 % 2))) &&& 15

/-- `Decode5`: 5-bit fields; groups 5..7 are rebuilt from the high bits of
byte groups p0..p4 exactly as the NEON shifts do. -/
def Decode5 (f : Nat → Nat) : List Nat :=
  (List.range 64).map fun i =>
    match i / 8 with
    | 0 => byte f (i % 8) &&& 31
    | 1 => byte f (8 + i % 8) &&& 31
    | 2 => byte f (16 + i % 8) &&& 31
    | 3 => byte f (24 + i % 8) &&& 31
    | 4 => byte f (32 + i % 8) &&& 31
    | 5 => ((byte f (i % 8) >>> 5) &&& 7) ||| (((byte f (24 + i % 8) >>> 5) &&& 3) <<< 3)
    | 6 => ((byte f (8 + i % 8) >>> 5) &&& 7) ||| (((byte f (32 + i % 8) >>> 5) &&& 3) <<< 3)
    | _ => (((byte f (16 + i % 8) >>> 5) &&& 7) ||| (((byte f (24 + i % 8) >>> 7) &&& 1) <<< 3)) |||
        (((byte f (32 + i % 8) >>> 7) &&& 1) <<< 4)

/-- `Decode6`: 6-bit fields; groups 6 and 7 collect the top two bits of
p0..p2 and p3..p5 respectively. -/
def Decode6 (f : Nat → Nat) : List Nat :=
  (List.range 64).map fun i =>
    match i / 8 with
    | 0 => byte f (i % 8) &&& 63
    | 1 => byte f (8 + i % 8) &&& 63
    | 2 => byte f (16 + i % 8) &&& 63
    | 3 => byte f (24 + i % 8) &&& 63
    | 4 => byte f (32 + i % 8) &&& 63
    | 5 => byte f (40 + i % 8) &&& 63
    | 6 => (((byte f (i % 8) >>> 6) &&& 3) ||| (((byte f (8 + i % 8) >>> 6) &&& 3) <<< 2)) |||
        (((byte f (16 + i % 8) >>> 6) &&& 3) <<< 4)
    | _ => (((byte f (24 + i % 8) >>> 6) &&& 3) ||| (((byte f (32 + i % 8) >>> 6) &&& 3) <<< 2)) |||
        (((byte f (40 + i % 8) >>> 6) &&& 3) <<< 4)

/-- `Decode8`: bits = 7 or 8, one byte per value, zero-extended. -/
def Decode8 (f : Nat → Nat) : List Nat :=
  (List.range 64).map fun i => byte f i

/-- `Decode10`: bits = 9 or 10; low 8 bits packed tightly, the two extra high
bits of each half's 32 values packed into byte groups p4 and p9. -/
def Decode10 (f : Nat → Nat) : List Nat :=
  (List.range 64).map fun i =>
    if i < 32 then
      byte f (8 * (i / 8) + i % 8) ||| (((byte f (32 + i % 8) >>> (2 * (i / 8))) &&& 3) <<< 8)
    else
      byte f (40 + 8 * (i / 8 - 4) + i % 8) |||
        (((byte f (72 + i % 8) >>> (2 * (i / 8 - 4))) &&& 3) <<< 8)

/-- `Decode16`: bits = 11..16, a direct little-endian `uint16` copy. -/
def Decode16 (f : Nat → Nat) : List Nat :=
  (List.range 64).map fun i => byte f (2 * i) ||| (byte f (2 * i + 1) <<< 8)

/-- `decodeTable` from RawData.cpp: dispatch on the bit-width.  Indices ≥ 17
read past the source array (undefined); the embedding returns `[]` there. -/
def decodeTable (bits : Nat) (f : Nat → Nat) : List Nat :=
  match bits with
  | 0 => Decode0 f
  | 1 => Decode1 f
  | 2 => Decode2 f
  | 3 => Decode3 f
  | 4 => Decode4 f
  | 5 => Decode5 f
  | 6 => Decode6 f
  | 7 => Decode8 f
  | 8 => Decode8 f
  | 9 => Decode10 f
  | 10 => Decode10 f
  | 11 => Decode16 f
  | 12 => Decode16 f
  | 13 => Decode16 f
  | 14 => Decode16 f
  | 15 => Decode16 f
  | 16 => Decode16 f
  | _ => []

/-- `DecodeBlock` from RawData.cpp.  On under-run
(`offset + ENCODING_BLOCK_LEN[bits] > len`) the output is left untouched
(`prev`) and `len - offset` is returned; otherwise the dispatched decoder
fills the 64 outputs and advances by the table entry (each decoder returns
`input + ENCODING_BLOCK_LEN[k]` for a `k` whose table entry equals the entry
of every bit-width dispatched to it, so the consumed count is the table
entry of `bits`). -/
def DecodeBlock (prev : List Nat) (bits : Nat) (input : Nat → Nat) (offset len : Nat) :
    List Nat × Nat :=
  if offset + ENCODING_BLOCK_LEN.getD bits 0 > len then (prev, len - offset)
  else (decodeTable bits (fun i => input (offset + i)), ENCODING_BLOCK_LEN.getD bits 0)

/-- Loop body of `DecodeMetadata`: one iteration per 64 output values
(`for (i = 0; i < num; i += 64)`), so `(num + 63) / 64` iterations in all.
Each iteration parses the 2-byte recursive-block header, decodes one block
into a zero-initialised 64-entry window of the output vector
(`out.resize(num)` value-initialises), and adds the 12-bit reference to the
window with `uint16_t` wrap-around.  Returns the values and the final
offset.  (When `num` is not a multiple of 64 the C++ writes past the vector;
the embedding keeps the full last block — claim C10 covers this.) -/
def metaLoop (input : Nat → Nat) (len : Nat) : Nat → Nat → List Nat × Nat
  | 0, offset => ([], offset)
  | n + 1, offset =>
    let bits := (byte input offset >>> 4) &&& 15
    let ref := ((byte input offset &&& 15) <<< 8) ||| byte input (offset + 1)
    let blk := DecodeBlock (List.replicate 64 0) bits input (offset + 2) len
    let rest := metaLoop input len n (offset + 2 + blk.2)
    ((blk.1.map fun v => (v + ref) % 65536) ++ rest.1, rest.2)

/-- `DecodeMetadata` from RawData.cpp: 4-byte little-endian count, then runs
of recursive blocks. -/
def DecodeMetadata (input : Nat → Nat) (offset len : Nat) : List Nat × Nat :=
  metaLoop input len ((readU32 input offset + 63) / 64) (offset + 4)

/-- `ReadMetadataHeader` from RawData.cpp: the four 32-bit little-endian
header fields `(encoded width, encoded height, bits offset, refs offset)`. -/
def ReadMetadataHeader (input : Nat → Nat) : Nat × Nat × Nat × Nat :=
  (readU32 input 0, readU32 input 4, readU32 input 8, readU32 input 12)

/-- The mutable state of `Decode`'s row-quad loop: the payload read offset,
the index into the metadata streams, the current column `x`, the four
`alignas(16)` scratch blocks `p0..p3` (stack storage, so they persist across
iterations and hold stale data after an under-run), and the four assembled
row buffers of width `encoded_width`. -/
structure QuadState where
  offset : Nat
  metaIdx : Nat
  x : Nat
  p0 : List Nat
  p1 : List Nat
  p2 : List Nat
  p3 : List Nat
  row0 : List Nat
  row1 : List Nat
  row2 : List Nat
  row3 : List Nat
deriving DecidableEq, Repr

/-- First payload block of one column position: `DecodeBlock(p0, bits[metaIdx], input, offset, len)`. -/
def payloadBlock0 (bits : List Nat) (input : Nat → Nat) (len : Nat) (s : QuadState) :
    List Nat × Nat :=
  DecodeBlock s.p0 (bits.getD s.metaIdx 0) input s.offset len

/-- Second payload block, read right after the first. -/
def payloadBlock1 (bits : List Nat) (input : Nat → Nat) (len : Nat) (s : QuadState) :
    List Nat × Nat :=
  DecodeBlock s.p1 (bits.getD (s.metaIdx + 1) 0) input
    (s.offset + (payloadBlock0 bits input len s).2) len

/-- Third payload block. -/
def payloadBlock2 (bits : List Nat) (input : Nat → Nat) (len : Nat) (s : QuadState) :
    List Nat × Nat :=
  DecodeBlock s.p2 (bits.getD (s.metaIdx + 2) 0) input
    (s.offset + (payloadBlock0 bits input len s).2 + (payloadBlock1 bits input len s).2) len

/-- Fourth payload block. -/
def payloadBlock3 (bits : List Nat) (input : Nat → Nat) (len : Nat) (s : QuadState) :
    List Nat × Nat :=
  DecodeBlock s.p3 (bits.getD (s.metaIdx + 3) 0) input
    (s.offset + (payloadBlock0 bits input len s).2 + (payloadBlock1 bits input len s).2 +
      (payloadBlock2 bits input len s).2) len

/-- One output row's share of `Decode`'s interleave loop
(`for (i = 0; i < 64; i += 2)`), restricted to a single row buffer: after
`k` iterations, positions `x + 2*j` hold `pa[base + j] + ra` and positions
`x + 2*j + 1` hold `pb[base + j] + rb` (`uint16_t` wrap-around), for
`j < k`.  `base` is 0 for the first row of a pair and 32
(`ENCODING_BLOCK / 2`) for the row two below. -/
def fillRow (x : Nat) (pa pb : List Nat) (ra rb base : Nat) (row : List Nat) : Nat → List Nat
  | 0 => row
  | k + 1 =>
    let row1 := fillRow x pa pb ra rb base row k
    (row1.set (x + 2 * k) ((pa.getD (base + k) 0 + ra) % 65536)).set (x + 2 * k + 1)
      ((pb.getD (base + k) 0 + rb) % 65536)

/-- One iteration of `Decode`'s column loop: read the four `(bits, ref)`
entries, decode the four payload blocks, interleave them into the four row
buffers, and advance `offset`, `metaIdx` and `x`. -/
def xStep (bits refs : List Nat) (input : Nat → Nat) (len : Nat) (s : QuadState) : QuadState :=
  let q0 := payloadBlock0 bits input len s
  let q1 := payloadBlock1 bits input len s
  let q2 := payloadBlock2 bits input len s
  let q3 := payloadBlock3 bits input len s
  let r0 := refs.getD s.metaIdx 0
  let r1 := refs.getD (s.metaIdx + 1) 0
  let r2 := refs.getD (s.metaIdx + 2) 0
  let r3 := refs.getD (s.metaIdx + 3) 0
  { offset := s.offset + q0.2 + q1.2 + q2.2 + q3.2
    metaIdx := s.metaIdx + 4
    x := s.x + 64
    p0 := q0.1
    p1 := q1.1
    p2 := q2.1
    p3 := q3.1
    row0 := fillRow s.x q0.1 q1.1 r0 r1 0 s.row0 32
    row1 := fillRow s.x q2.1 q3.1 r2 r3 0 s.row1 32
    row2 := fillRow s.x q0.1 q1.1 r0 r1 32 s.row2 32
    row3 := fillRow s.x q2.1 q3.1 r2 r3 32 s.row3 32 }

/-- `Decode`'s column loop (`for (x = 0; x < (int)encW; x += 64)`), iterated
a fixed number of times. -/
def xLoop (bits refs : List Nat) (input : Nat → Nat) (len : Nat) :
    Nat → QuadState → QuadState
  | 0, s => s
  | n + 1, s => xLoop bits refs input len n (xStep bits refs input len s)

/-- `Decode`'s row-quad loop (`for (y = 0; y < (int)encH; y += 4)`): run the
column loop across the row, then copy the first `width` samples of each of
the four assembled rows to the output. -/
def yLoop (bits refs : List Nat) (input : Nat → Nat) (len width nB : Nat) :
    Nat → QuadState → List Nat → QuadState × List Nat
  | 0, s, out => (s, out)
  | q + 1, s, out =>
    let s1 := xLoop bits refs input len nB { s with x := 0 }
    yLoop bits refs input len width nB q s1
      (out ++ s1.row0.take width ++ s1.row1.take width ++ s1.row2.take width ++
        s1.row3.take width)

/-- Trip count of the column loop: `x` runs over `0, 64, …` while
`x < (int)encW`, so `⌈encW / 64⌉` iterations; the `int` cast makes the loop
body unreachable when `encW ≥ 2^31`. -/
def xCount (encW : Nat) : Nat := if encW < 2147483648 then (encW + 63) / 64 else 0

/-- Trip count of the row-quad loop: `⌈encH / 4⌉` iterations, 0 when the
`int` cast of `encH` is negative. -/
def quadCount (encH : Nat) : Nat := if encH < 2147483648 then (encH + 3) / 4 else 0

/-- `Decode` from RawData.cpp.  `g0..g3` are the initial (indeterminate)
contents of the stack scratch blocks `p0..p3`.  Returns `none` when the
header check rejects (the C function returns 0 having written nothing) and
otherwise the final loop state together with the samples written to
`output`.  Note the loops are driven by the header's `encW`/`encH`; the
`height` parameter is unused in the source. -/
def Decode (g0 g1 g2 g3 : List Nat) (width height : Nat) (input : Nat → Nat) (len : Nat) :
    Option (QuadState × List Nat) :=
  let encW := readU32 input 0
  let encH := readU32 input 4
  let bitsOff := readU32 input 8
  let refsOff := readU32 input 12
  if bitsOff > len ∨ refsOff > len ∨ encW % 64 ≠ 0 ∨ encW < width then none
  else
    let bits := (DecodeMetadata input bitsOff len).1
    let refs := (DecodeMetadata input refsOff len).1
    let s0 : QuadState :=
      { offset := 16, metaIdx := 0, x := 0, p0 := g0, p1 := g1, p2 := g2, p3 := g3
        row0 := List.replicate encW 0, row1 := List.replicate encW 0
        row2 := List.replicate encW 0, row3 := List.replicate encW 0 }
    some (yLoop bits refs input len width (xCount encW) (quadCount encH) s0 [])

/-- The `size_t` value `Decode` returns: `output - outStart`, i.e. the number
of samples written, and 0 on header rejection. -/
def DecodeRet (g0 g1 g2 g3 : List Nat) (width height : Nat) (input : Nat → Nat) (len : Nat) :
    Nat :=
  match Decode g0 g1 g2 g3 width height input len with
  | none => 0
  | some (_, out) => out.length

/-- The bit-width values the payload loop of `Decode` reads from the decoded
bits stream and uses to index `decodeTable` / `ENCODING_BLOCK_LEN`: entries
`bits[0] … bits[4 * xCount * quadCount - 1]`, in loop order.  Empty when the
header check rejects. -/
def decodeUsedBits (width : Nat) (input : Nat → Nat) (len : Nat) : List Nat :=
  let encW := readU32 input 0
  let encH := readU32 input 4
  let bitsOff := readU32 input 8
  let refsOff := readU32 input 12
  if bitsOff > len ∨ refsOff > len ∨ encW % 64 ≠ 0 ∨ encW < width then []
  else
    let bits := (DecodeMetadata input bitsOff len).1
    (List.range (4 * xCount encW * quadCount encH)).map fun i => bits.getD i 0

/-- The indices into the `num`-entry output vector touched by
`DecodeMetadata`'s loop: iteration `k` (at `i = 64 * k`) writes the 64
entries `64 * k + j` (`j < 64`), both in the block decode and in the
reference-addition loop (`data[j] += ref; data += ENCODING_BLOCK`). -/
def metaWriteIndices (num : Nat) : List Nat :=
  (List.range ((num + 63) / 64)).flatMap fun k => (List.range 64).map fun j => 64 * k + j

/-- Spec-side definition of a raw little-endian 16-bit block, following the
spec's words for the nibble-15 case of a metadata block ("decodes as a raw
little-endian 16-bit block"). -/
def rawLE16Block (f : Nat → Nat) : List Nat :=
  (List.range 64).map fun i => byte f (2 * i) ||| (byte f (2 * i + 1) <<< 8)

/-- Spec-side residues of one metadata block: the block codec at the header's
bit-width, except that a bit-width nibble of 15 is the raw 16-bit case. -/
def specBlockResidues (b : Nat) (f : Nat → Nat) : List Nat :=
  if b = 15 then rawLE16Block f else decodeTable b f

/-- Spec-side byte count of one metadata block: 128 for the raw nibble-15
case, the fixed table entry otherwise. -/
def specBlockBytes (b : Nat) : Nat :=
  if b = 15 then 128 else ENCODING_BLOCK_LEN.getD b 0

/-- Spec-side metadata block run, following the claim's words: repeatedly
read a 2-byte header (high nibble of byte 0 = bit-width, low nibble of
byte 0 concatenated with byte 1 = 12-bit reference), decode 64 residues,
and add the reference to all of them. -/
def specMetaLoop (input : Nat → Nat) : Nat → Nat → List Nat × Nat
  | 0, offset => ([], offset)
  | n + 1, offset =>
    let b := (byte input offset >>> 4) &&& 15
    let ref := ((byte input offset &&& 15) <<< 8) ||| byte input (offset + 1)
    let vals := (specBlockResidues b fun i => input (offset + 2 + i)).map
      fun v => (v + ref) % 65536
    let rest := specMetaLoop input n (offset + 2 + specBlockBytes b)
    (vals ++ rest.1, rest.2)

/-- Spec-side metadata stream: a 4-byte little-endian count of values, then
`⌈count / 64⌉` blocks. -/
def specMetaStream (input : Nat → Nat) (offset : Nat) : List Nat × Nat :=
  specMetaLoop input ((readU32 input offset + 63) / 64) (offset + 4)

/-- `MAX_CACHE_FRAMES` of the multi-capture variant (mcraw-mounter-fuse.cpp). -/
def MAX_CACHE_FRAMES_fuse : Nat := 5

/-- `MAX_CACHE_FRAMES` of the single-capture variant (example.cpp). -/
def MAX_CACHE_FRAMES_example : Nat := 10

/-- The frame cache of `FSContext`: `frameCache` (a map from filename to DNG
blob, embedded as an association list) and `frameCacheOrder` (the FIFO of
insertion order). -/
structure CacheState where
  map : List (String × String)
  order : List String
deriving DecidableEq, Repr

/-- The eviction step of `load_frame`:
`frameCache.erase(frameCacheOrder.front()); frameCacheOrder.pop_front();`. -/
def cacheEvict (s : CacheState) : CacheState :=
  { map := s.map.filter fun e => e.1 ≠ s.order.headD ""
    order := s.order.tail }

/-- The cache-insertion tail of `load_frame`: evict the oldest entry when at
capacity, then `frameCache[path] = blob; frameCacheOrder.push_back(path);`. -/
def cacheInsert (K : Nat) (s : CacheState) (path blob : String) : CacheState :=
  let s1 := if K ≤ s.map.length then cacheEvict s else s
  { map := s1.map ++ [(path, blob)], order := s1.order ++ [path] }

/-- A sequence of `load_frame` cache insertions. -/
def runInserts (K : Nat) (s : CacheState) : List (String × String) → CacheState
  | [] => s
  | (p, b) :: rest => runInserts K (cacheInsert K s p b) rest

/-- The keys of the cache map. -/
def keysOf (m : List (String × String)) : List String := m.map Prod.fst

/-- The callers' contract on `load_frame`: a key is only inserted after a
lookup miss (`if (frameCache.count(path)) return 0;` guards every insert). -/
def goodRunB (K : Nat) (s : CacheState) : List (String × String) → Bool
  | [] => true
  | (p, b) :: rest => !(keysOf s.map).contains p && goodRunB K (cacheInsert K s p b) rest

/-- The cache invariant claimed by the spec: the FIFO has no duplicates, its
entries are exactly the map's keys (hence `|fifo| = |map|` and every key is
in the FIFO exactly once), and the map is bounded by `K`. -/
def cacheInv (K : Nat) (s : CacheState) : Prop :=
  s.order.Nodup ∧ (keysOf s.map).Perm s.order ∧ s.map.length ≤ K

/-- Error numbers used by the FUSE callbacks (POSIX values). -/
def ENOENT : Int := 2

/-- `EISDIR`. -/
def EISDIR : Int := 21

/-- `EACCES`. -/
def EACCES : Int := 13

/-- Per-capture state consulted by `fs_open` in the multi-capture variant:
the frame file names, the audio buffer size and the capture base name. -/
structure FSCtx where
  filenames : List (List Char)
  audioSize : Nat
  baseName : List Char
deriving DecidableEq, Repr

/-- `std::map::find` over the `contexts` map, by exact key. -/
def lookupCtx (cs : List (List Char × FSCtx)) (k : List Char) : Option FSCtx :=
  match cs with
  | [] => none
  | c :: rest => if c.1 = k then some c.2 else lookupCtx rest k

/-- `fs_open` from mcraw-mounter-fuse.cpp.  Paths are embedded as character
lists; `flags &&& 3` is the POSIX access mode, with `O_RDONLY = 0`. -/
def fs_open_multi (contexts : List (List Char × FSCtx)) (p : List Char) (flags : Nat) : Int :=
  if p.length < 2 ∨ p.headD ' ' ≠ '/' then -ENOENT
  else
    let rest := p.tail
    if '/' ∉ rest then -EISDIR
    else
      let base := rest.takeWhile fun c => c ≠ '/'
      let fname := (rest.dropWhile fun c => c ≠ '/').tail
      match lookupCtx contexts base with
      | none => -ENOENT
      | some ctx =>
        if fname = ctx.baseName ++ ".wav".toList then
          if flags &&& 3 = 0 then 0 else -EACCES
        else if fname ∉ ctx.filenames then -ENOENT
        else if flags &&& 3 = 0 then 0 else -EACCES

/-- `fs_open` from example.cpp: `fn = path + 1` is looked up in the flat
frame list; unknown names give `ENOENT`, non-read-only modes `EACCES`. -/
def fs_open_single (filenames : List (List Char)) (p : List Char) (flags : Nat) : Int :=
  let fn := p.tail
  if fn ∉ filenames then -ENOENT
  else if flags &&& 3 ≠ 0 then -EACCES
  else 0

/-- The byte-range copy shared by both `fs_read` implementations (DNG and
WAV branches): 0 bytes at or past the end, otherwise
`min(size, blob_len - offset)` bytes starting at `offset`. -/
def fs_read_copy (data : List Nat) (offset size : Nat) : List Nat :=
  if data.length ≤ offset then []
  else (data.drop offset).take (min size (data.length - offset))

/-! ## Helper lemmas -/

theorem byte_lt_256 (f : Nat → Nat) (i : Nat) : byte f i < 256 :=
  Nat.mod_lt _ (by norm_num)

theorem and_lt_65536 {a m : Nat} (h : m < 65536) : a &&& m < 65536 :=
  lt_of_le_of_lt Nat.and_le_right h

theorem or_lt_65536 {a b : Nat} (ha : a < 65536) (hb : b < 65536) : a ||| b < 65536 := by
  have h : (65536 : Nat) = 2 ^ 16 := by norm_num
  rw [h] at ha hb ⊢
  exact Nat.or_lt_two_pow ha hb

theorem and_shl_lt {a m s : Nat} (h : m * 2 ^ s < 65536) : (a &&& m) <<< s < 65536 := by
  rw [Nat.shiftLeft_eq]
  exact lt_of_le_of_lt (Nat.mul_le_mul_right _ Nat.and_le_right) h

theorem byte_shl8_lt (f : Nat → Nat) (i : Nat) : (byte f i) <<< 8 < 65536 := by
  rw [Nat.shiftLeft_eq]
  have h := byte_lt_256 f i
  have h2 : (2 : Nat) ^ 8 = 256 := by norm_num
  rw [h2]
  omega

theorem byte_lt_65536 (f : Nat → Nat) (i : Nat) : byte f i < 65536 :=
  lt_trans (byte_lt_256 f i) (by norm_num)

theorem Decode0_mem_lt (f : Nat → Nat) : ∀ v ∈ Decode0 f, v < 65536 := by
  intro v hv
  rw [Decode0] at hv
  rw [List.eq_of_mem_replicate hv]
  norm_num

theorem Decode1_mem_lt (f : Nat → Nat) : ∀ v ∈ Decode1 f, v < 65536 := by
  intro v hv
  rw [Decode1, List.mem_map] at hv
  obtain ⟨i, -, rfl⟩ := hv
  exact and_lt_65536 (by norm_num)

theorem Decode2_mem_lt (f : Nat → Nat) : ∀ v ∈ Decode2 f, v < 65536 := by
  intro v hv
  rw [Decode2, List.mem_map] at hv
  obtain ⟨i, -, rfl⟩ := hv
  exact and_lt_65536 (by norm_num)

theorem Decode3_mem_lt (f : Nat → Nat) : ∀ v ∈ Decode3 f, v < 65536 := by
  intro v hv
  rw [Decode3, List.mem_map] at hv
  obtain ⟨i, -, rfl⟩ := hv
  split <;>
    first
      | exact and_lt_65536 (by norm_num)
      | exact or_lt_65536 (and_lt_65536 (by norm_num)) (and_shl_lt (by norm_num))

theorem Decode4_mem_lt (f : Nat → Nat) : ∀ v ∈ Decode4 f, v < 65536 := by
  intro v hv
  rw [Decode4, List.mem_map] at hv
  obtain ⟨i, -, rfl⟩ := hv
  exact and_lt_65536 (by norm_num)

theorem Decode5_mem_lt (f : Nat → Nat) : ∀ v ∈ Decode5 f, v < 65536 := by
  intro v hv
  rw [Decode5, List.mem_map] at hv
  obtain ⟨i, -, rfl⟩ := hv
  split <;>
    first
      | exact and_lt_65536 (by norm_num)
      | exact or_lt_65536 (and_lt_65536 (by norm_num)) (and_shl_lt (by norm_num))
      | exact or_lt_65536
          (or_lt_65536 (and_lt_65536 (by norm_num)) (and_shl_lt (by norm_num)))
          (and_shl_lt (by norm_num))

theorem Decode6_mem_lt (f : Nat → Nat) : ∀ v ∈ Decode6 f, v < 65536 := by
  intro v hv
  rw [Decode6, List.mem_map] at hv
  obtain ⟨i, -, rfl⟩ := hv
  split <;>
    first
      | exact and_lt_65536 (by norm_num)
      | exact or_lt_65536
          (or_lt_65536 (and_lt_65536 (by norm_num)) (and_shl_lt (by norm_num)))
          (and_shl_lt (by norm_num))

theorem Decode8_mem_lt (f : Nat → Nat) : ∀ v ∈ Decode8 f, v < 65536 := by
  intro v hv
  rw [Decode8, List.mem_map] at hv
  obtain ⟨i, -, rfl⟩ := hv
  exact byte_lt_65536 f i

theorem Decode10_mem_lt (f : Nat → Nat) : ∀ v ∈ Decode10 f, v < 65536 := by
  intro v hv
  rw [Decode10, List.mem_map] at hv
  obtain ⟨i, -, rfl⟩ := hv
  split <;> exact or_lt_65536 (byte_lt_65536 f _) (and_shl_lt (by norm_num))

theorem Decode16_mem_lt (f : Nat → Nat) : ∀ v ∈ Decode16 f, v < 65536 := by
  intro v hv
  rw [Decode16, List.mem_map] at hv
  obtain ⟨i, -, rfl⟩ := hv
  exact or_lt_65536 (byte_lt_65536 f _) (byte_shl8_lt f _)

theorem decodeTable_mem_lt (bits : Nat) (f : Nat → Nat) :
    ∀ v ∈ decodeTable bits f, v < 65536 := by
  intro v hv
  unfold decodeTable at hv
  split at hv <;>
    first
      | exact Decode0_mem_lt f v hv
      | exact Decode1_mem_lt f v hv
      | exact Decode2_mem_lt f v hv
      | exact Decode3_mem_lt f v hv
      | exact Decode4_mem_lt f v hv
      | exact Decode5_mem_lt f v hv
      | exact Decode6_mem_lt f v hv
      | exact Decode8_mem_lt f v hv
      | exact Decode10_mem_lt f v hv
      | exact Decode16_mem_lt f v hv
      | simp at hv

theorem decodeTable_length (bits : Nat) (f : Nat → Nat) (h : bits ≤ 16) :
    (decodeTable bits f).length = 64 := by
  interval_cases bits <;>
    simp [decodeTable, Decode0, Decode1, Decode2, Decode3, Decode4, Decode5, Decode6,
      Decode8, Decode10, Decode16]

theorem getD_set_self {l : List Nat} {i v : Nat} (h : i < l.length) :
    (l.set i v).getD i 0 = v := by
  induction l generalizing i with
  | nil => simp at h
  | cons a t ih =>
    cases i with
    | zero => rfl
    | succ n =>
      have h2 : n < t.length := by simpa using h
      simpa using ih h2

theorem getD_set_ne {l : List Nat} {i j v : Nat} (h : i ≠ j) :
    (l.set i v).getD j 0 = l.getD j 0 := by
  induction l generalizing i j with
  | nil => simp
  | cons a t ih =>
    cases i with
    | zero =>
      cases j with
      | zero => exact absurd rfl h
      | succ m => simp
    | succ n =>
      cases j with
      | zero => simp
      | succ m => simpa using ih (by omega)

theorem fillRow_length (x : Nat) (pa pb : List Nat) (ra rb base : Nat) (row : List Nat) :
    ∀ k, (fillRow x pa pb ra rb base row k).length = row.length := by
  intro k
  induction k with
  | zero => rfl
  | succ n ih => simp [fillRow, ih]

theorem fillRow_getD_even (x : Nat) (pa pb : List Nat) (ra rb base : Nat) (row : List Nat)
    (k : Nat) (hk : x + 2 * k ≤ row.length) :
    ∀ j, j < k →
      (fillRow x pa pb ra rb base row k).getD (x + 2 * j) 0 =
        (pa.getD (base + j) 0 + ra) % 65536 := by
  induction k with
  | zero => intro j hj; omega
  | succ n ih =>
    intro j hj
    have hlen := fillRow_length x pa pb ra rb base row n
    simp only [fillRow]
    rcases Nat.lt_or_ge j n with hj2 | hj2
    · rw [getD_set_ne (by omega), getD_set_ne (by omega)]
      exact ih (by omega) j hj2
    · have hjn : j = n := by omega
      subst hjn
      rw [getD_set_ne (by omega), getD_set_self (by rw [hlen]; omega)]

theorem fillRow_getD_odd (x : Nat) (pa pb : List Nat) (ra rb base : Nat) (row : List Nat)
    (k : Nat) (hk : x + 2 * k ≤ row.length) :
    ∀ j, j < k →
      (fillRow x pa pb ra rb base row k).getD (x + 2 * j + 1) 0 =
        (pb.getD (base + j) 0 + rb) % 65536 := by
  induction k with
  | zero => intro j hj; omega
  | succ n ih =>
    intro j hj
    have hlen := fillRow_length x pa pb ra rb base row n
    simp only [fillRow]
    rcases Nat.lt_or_ge j n with hj2 | hj2
    · rw [getD_set_ne (by omega), getD_set_ne (by omega)]
      exact ih (by omega) j hj2
    · have hjn : j = n := by omega
      subst hjn
      rw [getD_set_self (by simp [hlen]; omega)]

/-- Claim C4: in `Decode`'s interleave loop, for every row-quad state and
every `i < 32`, the even output row of each pair receives
`block[i] + reference` at column `x + 2i` (blocks 0/1 feeding the even and
odd columns of the first row, blocks 2/3 the second row), and the row two
below receives `block[32 + i] + reference` — every decoded sample is its
block residue plus the block's reference (`uint16_t` addition). -/
theorem c4_interleave (bits refs : List Nat) (input : Nat → Nat) (len : Nat) (s : QuadState)
    (h0 : s.x + 64 ≤ s.row0.length) (h1 : s.x + 64 ≤ s.row1.length)
    (h2 : s.x + 64 ≤ s.row2.length) (h3 : s.x + 64 ≤ s.row3.length) :
    ∀ i, i < 32 →
      ((xStep bits refs input len s).row0.getD (s.x + 2 * i) 0 =
          ((payloadBlock0 bits input len s).1.getD i 0 + refs.getD s.metaIdx 0) % 65536) ∧
      ((xStep bits refs input len s).row0.getD (s.x + 2 * i + 1) 0 =
          ((payloadBlock1 bits input len s).1.getD i 0 + refs.getD (s.metaIdx + 1) 0) % 65536) ∧
      ((xStep bits refs input len s).row1.getD (s.x + 2 * i) 0 =
          ((payloadBlock2 bits input len s).1.getD i 0 + refs.getD (s.metaIdx + 2) 0) % 65536) ∧
      ((xStep bits refs input len s).row1.getD (s.x + 2 * i + 1) 0 =
          ((payloadBlock3 bits input len s).1.getD i 0 + refs.getD (s.metaIdx + 3) 0) % 65536) ∧
      ((xStep bits refs input len s).row2.getD (s.x + 2 * i) 0 =
          ((payloadBlock0 bits input len s).1.getD (32 + i) 0 + refs.getD s.metaIdx 0) % 65536) ∧
      ((xStep bits refs input len s).row2.getD (s.x + 2 * i + 1) 0 =
          ((payloadBlock1 bits input len s).1.getD (32 + i) 0 + refs.getD (s.metaIdx + 1) 0) % 65536) ∧
      ((xStep bits refs input len s).row3.getD (s.x + 2 * i) 0 =
          ((payloadBlock2 bits input len s).1.getD (32 + i) 0 + refs.getD (s.metaIdx + 2) 0) % 65536) ∧
      ((xStep bits refs input len s).row3.getD (s.x + 2 * i + 1) 0 =
          ((payloadBlock3 bits input len s).1.getD (32 + i) 0 + refs.getD (s.metaIdx + 3) 0) % 65536) := by
  intro i hi
  refine ⟨?_, ?_, ?_, ?_, ?_, ?_, ?_, ?_⟩ <;> simp only [xStep]
  · simpa using fillRow_getD_even s.x _ _ _ _ 0 s.row0 32 (by omega) i hi
  · simpa using fillRow_getD_odd s.x _ _ _ _ 0 s.row0 32 (by omega) i hi
  · simpa using fillRow_getD_even s.x _ _ _ _ 0 s.row1 32 (by omega) i hi
  · simpa using fillRow_getD_odd s.x _ _ _ _ 0 s.row1 32 (by omega) i hi
  · simpa using fillRow_getD_even s.x _ _ _ _ 32 s.row2 32 (by omega) i hi
  · simpa using fillRow_getD_odd s.x _ _ _ _ 32 s.row2 32 (by omega) i hi
  · simpa using fillRow_getD_even s.x _ _ _ _ 32 s.row3 32 (by omega) i hi
  · simpa using fillRow_getD_odd s.x _ _ _ _ 32 s.row3 32 (by omega) i hi

theorem xStep_row_lengths (bits refs : List Nat) (input : Nat → Nat) (len : Nat)
    (s : QuadState) :
    (xStep bits refs input len s).row0.length = s.row0.length ∧
    (xStep bits refs input len s).row1.length = s.row1.length ∧
    (xStep bits refs input len s).row2.length = s.row2.length ∧
    (xStep bits refs input len s).row3.length = s.row3.length ∧
    (xStep bits refs input len s).metaIdx = s.metaIdx + 4 := by
  simp [xStep, fillRow_length]

theorem xLoop_row_lengths (bits refs : List Nat) (input : Nat → Nat) (len : Nat) :
    ∀ n s, (xLoop bits refs input len n s).row0.length = s.row0.length ∧
      (xLoop bits refs input len n s).row1.length = s.row1.length ∧
      (xLoop bits refs input len n s).row2.length = s.row2.length ∧
      (xLoop bits refs input len n s).row3.length = s.row3.length ∧
      (xLoop bits refs input len n s).metaIdx = s.metaIdx + 4 * n := by
  intro n
  induction n with
  | zero => intro s; simp [xLoop]
  | succ m ih =>
    intro s
    have h1 := xStep_row_lengths bits refs input len s
    have h2 := ih (xStep bits refs input len s)
    rw [xLoop]
    refine ⟨?_, ?_, ?_, ?_, ?_⟩ <;> omega

theorem yLoop_shape (bits refs : List Nat) (input : Nat → Nat) (len width nB : Nat) :
    ∀ q s out, width ≤ s.row0.length → width ≤ s.row1.length → width ≤ s.row2.length →
      width ≤ s.row3.length →
      (yLoop bits refs input len width nB q s out).2.length = out.length + q * (4 * width) ∧
      (yLoop bits refs input len width nB q s out).1.metaIdx = s.metaIdx + q * (4 * nB) := by
  intro q
  induction q with
  | zero => intro s out h0 h1 h2 h3; simp [yLoop]
  | succ m ih =>
    intro s out h0 h1 h2 h3
    have hx := xLoop_row_lengths bits refs input len nB { s with x := 0 }
    rw [yLoop]
    have hrec := ih (xLoop bits refs input len nB { s with x := 0 })
      (out ++ (xLoop bits refs input len nB { s with x := 0 }).row0.take width ++
        (xLoop bits refs input len nB { s with x := 0 }).row1.take width ++
        (xLoop bits refs input len nB { s with x := 0 }).row2.take width ++
        (xLoop bits refs input len nB { s with x := 0 }).row3.take width)
      (by simp_all) (by simp_all) (by simp_all) (by simp_all)
    obtain ⟨hlen, hmeta⟩ := hrec
    constructor
    · rw [hlen]
      simp only [List.length_append, List.length_take]
      have e0 : min width (xLoop bits refs input len nB { s with x := 0 }).row0.length = width := by
        simp_all
      have e1 : min width (xLoop bits refs input len nB { s with x := 0 }).row1.length = width := by
        simp_all
      have e2 : min width (xLoop bits refs input len nB { s with x := 0 }).row2.length = width := by
        simp_all
      have e3 : min width (xLoop bits refs input len nB { s with x := 0 }).row3.length = width := by
        simp_all
      rw [e0, e1, e2, e3]
      ring
    · rw [hmeta]
      have : (xLoop bits refs input len nB { s with x := 0 }).metaIdx = s.metaIdx + 4 * nB := by
        simpa using hx.2.2.2.2
      rw [this]
      ring

theorem metaLoop_mem_lt (input : Nat → Nat) (len : Nat) :
    ∀ n offset v, v ∈ (metaLoop input len n offset).1 → v < 65536 := by
  intro n
  induction n with
  | zero => intro offset v hv; simp [metaLoop] at hv
  | succ m ih =>
    intro offset v hv
    simp only [metaLoop] at hv
    rw [List.mem_append] at hv
    rcases hv with hv | hv
    · rw [List.mem_map] at hv
      obtain ⟨w, -, rfl⟩ := hv
      exact Nat.mod_lt _ (by norm_num)
    · exact ih _ v hv

theorem getD_lt_of_forall {l : List Nat} {B : Nat} (hB : 0 < B) (h : ∀ v ∈ l, v < B) :
    ∀ i, l.getD i 0 < B := by
  intro i
  induction l generalizing i with
  | nil => simpa using hB
  | cons a t ih =>
    cases i with
    | zero => exact h a (by simp)
    | succ n => simpa using ih (fun v hv => h v (by simp [hv])) n

/-- All-zero 64-entry block, used as concrete scratch contents below. -/
def z64 : List Nat := List.replicate 64 0

/-- A 24-byte buffer whose header is accepted (`encW = 64` is a multiple of
64 and ≥ 64; both stream offsets are inside the buffer) but whose
`encoded_height` field is 0 while the requested height is 4. -/
def c1cexInput : Nat → Nat := fun i =>
  ([64, 0, 0, 0, 0, 0, 0, 0, 16, 0, 0, 0, 20, 0, 0, 0,
    0, 0, 0, 0, 0, 0, 0, 0] : List Nat).getD i 0

/-- A 28-byte buffer with an accepted header (`encW = 64`, `encH = 4`,
bits stream at 16, refs stream at 22), whose bits stream decodes to 64
values equal to 1, so each payload block needs 8 bytes — the payload
(starting at offset 16) runs out after its first block. -/
def c2cexInput : Nat → Nat := fun i =>
  ([64, 0, 0, 0, 4, 0, 0, 0, 16, 0, 0, 0, 22, 0, 0, 0,
    64, 0, 0, 0, 0, 1, 64, 0, 0, 0, 0, 0] : List Nat).getD i 0

/-- A 22-byte buffer with an accepted header whose bits stream is a single
bit-width-0 block with reference 17: all decoded bits values are 17, which
exceeds every valid `decodeTable` index. -/
def c9cexInput : Nat → Nat := fun i =>
  ([64, 0, 0, 0, 4, 0, 0, 0, 16, 0, 0, 0, 16, 0, 0, 0,
    64, 0, 0, 0, 0, 17] : List Nat).getD i 0

/-- Claim C1 (amended): for every buffer accepted by the header check,
`Decode` produces exactly `width × (4 · ⌈encoded_height / 4⌉)` samples — the
row count is taken from the header's `encoded_height`; the
`requested_height` argument is ignored — and per row-quad all
`⌈encoded_width / 64⌉ × 4` payload blocks are consumed (the final metadata
index covers the full encoded width) while only the first `width` columns
of each assembled `encoded_width`-wide row are copied to the output. -/
theorem c1_decode_shape (g0 g1 g2 g3 : List Nat) (width height : Nat) (input : Nat → Nat)
    (len : Nat) (hb : readU32 input 8 ≤ len) (hr : readU32 input 12 ≤ len)
    (hw : readU32 input 0 % 64 = 0) (hwge : width ≤ readU32 input 0) :
    ∃ s out, Decode g0 g1 g2 g3 width height input len = some (s, out) ∧
      out.length = 4 * quadCount (readU32 input 4) * width ∧
      s.metaIdx = 4 * xCount (readU32 input 0) * quadCount (readU32 input 4) := by
  simp only [Decode]
  rw [if_neg (by push_neg; exact ⟨hb, hr, hw, hwge⟩)]
  obtain ⟨hlen, hmeta⟩ := yLoop_shape (DecodeMetadata input (readU32 input 8) len).1
    (DecodeMetadata input (readU32 input 12) len).1 input len width
    (xCount (readU32 input 0)) (quadCount (readU32 input 4))
    { offset := 16, metaIdx := 0, x := 0, p0 := g0, p1 := g1, p2 := g2, p3 := g3
      row0 := List.replicate (readU32 input 0) 0, row1 := List.replicate (readU32 input 0) 0
      row2 := List.replicate (readU32 input 0) 0, row3 := List.replicate (readU32 input 0) 0 }
    [] (by simpa using hwge) (by simpa using hwge) (by simpa using hwge) (by simpa using hwge)
  refine ⟨_, _, rfl, ?_, ?_⟩
  · rw [hlen]
    simp only [List.length_nil, Nat.zero_add]
    ring
  · rw [hmeta]
    simp only [Nat.zero_add]
    ring

/-- Claim C1 witness: a concrete accepted frame. -/
theorem c1_decode_shape_witness :
    ∃ s out, Decode z64 z64 z64 z64 64 4 c2cexInput 28 = some (s, out) ∧
      out.length = 4 * quadCount (readU32 c2cexInput 4) * 64 ∧
      s.metaIdx = 4 * xCount (readU32 c2cexInput 0) * quadCount (readU32 c2cexInput 4) :=
  c1_decode_shape z64 z64 z64 z64 64 4 c2cexInput 28 (by decide) (by decide) (by decide)
    (by decide)

/-- Claim C1 counterexample: `c1cexInput` is accepted by the header check
with `requested_width = 64` and `requested_height = 4`, yet `Decode` writes
0 samples, not `64 × 4`: the sample count follows the header's
`encoded_height = 0`, not the requested height. -/
theorem c1_counterexample :
    (readU32 c1cexInput 8 ≤ 24 ∧ readU32 c1cexInput 12 ≤ 24 ∧
      readU32 c1cexInput 0 % 64 = 0 ∧ 64 ≤ readU32 c1cexInput 0) ∧
    DecodeRet [] [] [] [] 64 4 c1cexInput 24 ≠ 64 * 4 := by decide

/-- Claim C2 (amended): `Decode` returns its error result (0, no output)
exactly for header violations; a buffer under-run during a block read does
not fail the decode — `DecodeBlock` returns the remaining byte count
`len - offset` with the 64 outputs left untouched, the caller advances to
the end of the stream and decoding continues, and no stream-length
consistency check is performed. -/
theorem c2_error_behaviour (g0 g1 g2 g3 prev : List Nat) (width height bits offset : Nat)
    (input : Nat → Nat) (len : Nat) :
    ((readU32 input 8 > len ∨ readU32 input 12 > len ∨ readU32 input 0 % 64 ≠ 0 ∨
        readU32 input 0 < width) →
      Decode g0 g1 g2 g3 width height input len = none ∧
        DecodeRet g0 g1 g2 g3 width height input len = 0) ∧
    (offset + ENCODING_BLOCK_LEN.getD bits 0 > len →
      DecodeBlock prev bits input offset len = (prev, len - offset)) := by
  constructor
  · intro h
    have hd : Decode g0 g1 g2 g3 width height input len = none := by
      simp only [Decode]
      rw [if_pos h]
    exact ⟨hd, by simp [DecodeRet, hd]⟩
  · intro h
    simp only [DecodeBlock]
    rw [if_pos h]

/-- Claim C2 witness: the header-violation and under-run branches at
concrete inputs. -/
theorem c2_error_behaviour_witness :
    Decode [] [] [] [] 1 1 (fun _ => 0) 0 = none ∧
    DecodeBlock [] 1 (fun _ => 0) 0 0 = ([], 0) := by
  constructor
  · exact ((c2_error_behaviour [] [] [] [] [] 1 1 1 0 (fun _ => 0) 0).1 (by decide)).1
  · simpa using (c2_error_behaviour [] [] [] [] [] 1 1 1 0 (fun _ => 0) 0).2 (by decide)

/-- Claim C2 counterexample: `c2cexInput` has an accepted header and a
consistent bits stream of 64 ones, its payload under-runs at the second
block (offset 24, needing 8 bytes with only 4 left — `DecodeBlock` returns
the remaining 4 bytes), yet `Decode` does not fail: it returns a full
`64 × 4 = 256`-sample output (stale scratch data included) instead of its
error result 0. -/
theorem c2_counterexample :
    (readU32 c2cexInput 8 ≤ 28 ∧ readU32 c2cexInput 12 ≤ 28 ∧
      readU32 c2cexInput 0 % 64 = 0 ∧ 64 ≤ readU32 c2cexInput 0) ∧
    (DecodeMetadata c2cexInput 16 28).1 = List.replicate 64 1 ∧
    24 + ENCODING_BLOCK_LEN.getD 1 0 > 28 ∧
    (DecodeBlock z64 1 c2cexInput 24 28).2 = 4 ∧
    DecodeRet z64 z64 z64 z64 64 4 c2cexInput 28 = 256 := by decide

/-- Claim C9 (amended): the bit-width values the payload loop takes from the
decoded bits stream are arbitrary `uint16` values (each is a residue plus a
12-bit reference, reduced mod 2^16) — they are bounded by 65536 but not by
16, and `Decode` performs no range check before indexing the 17-entry
tables with them. -/
theorem c9_used_bits (width : Nat) (input : Nat → Nat) (len b : Nat)
    (hb : b ∈ decodeUsedBits width input len) : b < 65536 := by
  simp only [decodeUsedBits] at hb
  split at hb
  · simp at hb
  · rw [List.mem_map] at hb
    obtain ⟨i, -, rfl⟩ := hb
    refine getD_lt_of_forall (by norm_num) ?_ i
    intro v hv
    exact metaLoop_mem_lt input len _ _ v (by simpa [DecodeMetadata] using hv)

/-- Claim C9 witness: the bound applied at the concrete out-of-range bits
value 17. -/
theorem c9_used_bits_witness :
    17 ∈ decodeUsedBits 64 c9cexInput 22 ∧ 17 < 65536 :=
  ⟨by decide, c9_used_bits 64 c9cexInput 22 17 (by decide)⟩

/-- Claim C9 counterexample: `c9cexInput` is accepted by the header check,
yet the payload loop's first four table indices are all 17 — outside the
range 0..16 the claim asserts, so the table lookups are out of bounds. -/
theorem c9_counterexample :
    (readU32 c9cexInput 8 ≤ 22 ∧ readU32 c9cexInput 12 ≤ 22 ∧
      readU32 c9cexInput 0 % 64 = 0 ∧ 64 ≤ readU32 c9cexInput 0) ∧
    17 ∈ decodeUsedBits 64 c9cexInput 22 ∧ ¬17 ≤ 16 := by decide

/-- Concrete quad state for the C4 witness: the scratch blocks hold zeros
and the four row buffers are 64 wide. -/
def c4s : QuadState :=
  { offset := 16, metaIdx := 0, x := 0, p0 := z64, p1 := z64, p2 := z64, p3 := z64
    row0 := z64, row1 := z64, row2 := z64, row3 := z64 }

/-- Claim C4 witness: the interleave identities at a concrete state,
column 0, `i = 0`. -/
theorem c4_interleave_witness :
    ((xStep [1, 2, 3, 4] [10, 20, 30, 40] (fun _ => 0) 1000 c4s).row0.getD
        (c4s.x + 2 * 0) 0 =
      ((payloadBlock0 [1, 2, 3, 4] (fun _ => 0) 1000 c4s).1.getD 0 0 +
        [10, 20, 30, 40].getD c4s.metaIdx 0) % 65536) ∧
    ((xStep [1, 2, 3, 4] [10, 20, 30, 40] (fun _ => 0) 1000 c4s).row0.getD
        (c4s.x + 2 * 0 + 1) 0 =
      ((payloadBlock1 [1, 2, 3, 4] (fun _ => 0) 1000 c4s).1.getD 0 0 +
        [10, 20, 30, 40].getD (c4s.metaIdx + 1) 0) % 65536) ∧
    ((xStep [1, 2, 3, 4] [10, 20, 30, 40] (fun _ => 0) 1000 c4s).row1.getD
        (c4s.x + 2 * 0) 0 =
      ((payloadBlock2 [1, 2, 3, 4] (fun _ => 0) 1000 c4s).1.getD 0 0 +
        [10, 20, 30, 40].getD (c4s.metaIdx + 2) 0) % 65536) ∧
    ((xStep [1, 2, 3, 4] [10, 20, 30, 40] (fun _ => 0) 1000 c4s).row1.getD
        (c4s.x + 2 * 0 + 1) 0 =
      ((payloadBlock3 [1, 2, 3, 4] (fun _ => 0) 1000 c4s).1.getD 0 0 +
        [10, 20, 30, 40].getD (c4s.metaIdx + 3) 0) % 65536) ∧
    ((xStep [1, 2, 3, 4] [10, 20, 30, 40] (fun _ => 0) 1000 c4s).row2.getD
        (c4s.x + 2 * 0) 0 =
      ((payloadBlock0 [1, 2, 3, 4] (fun _ => 0) 1000 c4s).1.getD (32 + 0) 0 +
        [10, 20, 30, 40].getD c4s.metaIdx 0) % 65536) ∧
    ((xStep [1, 2, 3, 4] [10, 20, 30, 40] (fun _ => 0) 1000 c4s).row2.getD
        (c4s.x + 2 * 0 + 1) 0 =
      ((payloadBlock1 [1, 2, 3, 4] (fun _ => 0) 1000 c4s).1.getD (32 + 0) 0 +
        [10, 20, 30, 40].getD (c4s.metaIdx + 1) 0) % 65536) ∧
    ((xStep [1, 2, 3, 4] [10, 20, 30, 40] (fun _ => 0) 1000 c4s).row3.getD
        (c4s.x + 2 * 0) 0 =
      ((payloadBlock2 [1, 2, 3, 4] (fun _ => 0) 1000 c4s).1.getD (32 + 0) 0 +
        [10, 20, 30, 40].getD (c4s.metaIdx + 2) 0) % 65536) ∧
    ((xStep [1, 2, 3, 4] [10, 20, 30, 40] (fun _ => 0) 1000 c4s).row3.getD
        (c4s.x + 2 * 0 + 1) 0 =
      ((payloadBlock3 [1, 2, 3, 4] (fun _ => 0) 1000 c4s).1.getD (32 + 0) 0 +
        [10, 20, 30, 40].getD (c4s.metaIdx + 3) 0) % 65536) :=
  c4_interleave [1, 2, 3, 4] [10, 20, 30, 40] (fun _ => 0) 1000 c4s (by decide) (by decide)
    (by decide) (by decide) 0 (by decide)

/-- Claim C6: for every bit-width `b ∈ 0..16`, decoding one block with
sufficient remaining input produces exactly 64 unsigned 16-bit values and
consumes exactly `ENCODING_BLOCK_LEN[b]` bytes; in particular, `b = 0`
emits 64 zeros and consumes 0 bytes. -/
theorem c6_block_codec (prev : List Nat) (bits : Nat) (input : Nat → Nat) (offset len : Nat)
    (hb : bits ≤ 16) (hlen : offset + ENCODING_BLOCK_LEN.getD bits 0 ≤ len) :
    (DecodeBlock prev bits input offset len).1.length = 64 ∧
    (∀ v ∈ (DecodeBlock prev bits input offset len).1, v < 65536) ∧
    (DecodeBlock prev bits input offset len).2 = ENCODING_BLOCK_LEN.getD bits 0 ∧
    (bits = 0 → (DecodeBlock prev bits input offset len).1 = List.replicate 64 0 ∧
      (DecodeBlock prev bits input offset len).2 = 0) := by
  have hguard : ¬offset + ENCODING_BLOCK_LEN.getD bits 0 > len := by omega
  simp only [DecodeBlock]
  rw [if_neg hguard]
  refine ⟨decodeTable_length bits _ hb, decodeTable_mem_lt bits _, rfl, ?_⟩
  intro h0
  subst h0
  exact ⟨rfl, rfl⟩

/-- Claim C6 witness: the zero-width block at a concrete input. -/
theorem c6_block_codec_witness :
    (DecodeBlock [] 0 (fun _ => 0) 0 0).1.length = 64 ∧
    (∀ v ∈ (DecodeBlock [] 0 (fun _ => 0) 0 0).1, v < 65536) ∧
    (DecodeBlock [] 0 (fun _ => 0) 0 0).2 = ENCODING_BLOCK_LEN.getD 0 0 ∧
    (0 = 0 → (DecodeBlock [] 0 (fun _ => 0) 0 0).1 = List.replicate 64 0 ∧
      (DecodeBlock [] 0 (fun _ => 0) 0 0).2 = 0) :=
  c6_block_codec [] 0 (fun _ => 0) 0 0 (by decide) (by decide)

theorem DecodeBlock_z64_length (bits : Nat) (input : Nat → Nat) (offset len : Nat)
    (hb : bits ≤ 16) :
    (DecodeBlock (List.replicate 64 0) bits input offset len).1.length = 64 := by
  simp only [DecodeBlock]
  split
  · simp
  · exact decodeTable_length bits _ hb

theorem metaLoop_length (input : Nat → Nat) (len : Nat) :
    ∀ n offset, (metaLoop input len n offset).1.length = 64 * n := by
  intro n
  induction n with
  | zero => intro offset; rfl
  | succ m ih =>
    intro offset
    have hbits : ((byte input offset >>> 4) &&& 15 : Nat) ≤ 16 :=
      le_trans Nat.and_le_right (by norm_num)
    simp only [metaLoop]
    rw [List.length_append, List.length_map, ih, DecodeBlock_z64_length _ input _ len hbits]
    omega

/-- Claim C10: when the 4-byte count `num` of a metadata stream is a
multiple of 64 (or zero), every output index touched by `DecodeMetadata`'s
loop — both the 64-value block decode and the 64-iteration
reference-addition loop — lies within the `num` entries of the vector, and
the values produced fill the vector exactly. -/
theorem c10_meta_writes (input : Nat → Nat) (offset len : Nat)
    (h : readU32 input offset % 64 = 0) :
    (∀ idx ∈ metaWriteIndices (readU32 input offset), idx < readU32 input offset) ∧
    (DecodeMetadata input offset len).1.length = readU32 input offset := by
  constructor
  · intro idx hidx
    simp only [metaWriteIndices, List.mem_flatMap] at hidx
    obtain ⟨k, hk, hidx⟩ := hidx
    rw [List.mem_map] at hidx
    obtain ⟨j, hj, rfl⟩ := hidx
    rw [List.mem_range] at hk
    rw [List.mem_range] at hj
    omega
  · rw [DecodeMetadata, metaLoop_length]
    omega

/-- The single-block metadata stream used as C10's and C5's witness input:
count 64, then one block with bit-width nibble 15 (raw 16-bit, 128 bytes of
zeros beyond the listed prefix) and reference 0. -/
def c5wInput : Nat → Nat := fun i => ([64, 0, 0, 0, 240] : List Nat).getD i 0

/-- Claim C10 witness: a stream with `num = 64`. -/
theorem c10_meta_writes_witness :
    (∀ idx ∈ metaWriteIndices (readU32 c5wInput 0), idx < readU32 c5wInput 0) ∧
    (DecodeMetadata c5wInput 0 134).1.length = readU32 c5wInput 0 :=
  c10_meta_writes c5wInput 0 134 (by decide)

theorem ENCODING_BLOCK_LEN_le_128 (b : Nat) (hb : b ≤ 15) :
    ENCODING_BLOCK_LEN.getD b 0 ≤ 128 := by
  interval_cases b <;> decide

theorem specBlockResidues_eq (b : Nat) (f : Nat → Nat) :
    specBlockResidues b f = decodeTable b f := by
  unfold specBlockResidues
  split
  · subst b
    rfl
  · rfl

theorem specBlockBytes_eq (b : Nat) : specBlockBytes b = ENCODING_BLOCK_LEN.getD b 0 := by
  unfold specBlockBytes
  split
  · subst b
    rfl
  · rfl

theorem metaLoop_eq_spec (input : Nat → Nat) (len : Nat) :
    ∀ n offset, offset + 130 * n ≤ len →
      metaLoop input len n offset = specMetaLoop input n offset := by
  intro n
  induction n with
  | zero => intro offset h; rfl
  | succ m ih =>
    intro offset h
    have hb : ((byte input offset >>> 4) &&& 15 : Nat) ≤ 15 := Nat.and_le_right
    have hL := ENCODING_BLOCK_LEN_le_128 _ hb
    have hDB : DecodeBlock (List.replicate 64 0) ((byte input offset >>> 4) &&& 15) input
        (offset + 2) len =
        (decodeTable ((byte input offset >>> 4) &&& 15) (fun i => input (offset + 2 + i)),
          ENCODING_BLOCK_LEN.getD ((byte input offset >>> 4) &&& 15) 0) := by
      simp only [DecodeBlock]
      rw [if_neg (by omega)]
    simp only [metaLoop, specMetaLoop, hDB, specBlockResidues_eq, specBlockBytes_eq]
    rw [ih (offset + 2 + ENCODING_BLOCK_LEN.getD ((byte input offset >>> 4) &&& 15) 0)
      (by omega)]

/-- Claim C5: a metadata stream is decoded by reading a 4-byte little-endian
count, then repeatedly parsing a 2-byte block header (bit-width = high
nibble of byte 0, 12-bit reference = low nibble of byte 0 concatenated with
byte 1), decoding 64 residues with the block codec, and adding the
reference to all 64 values (`uint16_t` arithmetic); a bit-width nibble of
15 decodes as a raw little-endian 16-bit block consuming 128 bytes.
`DecodeMetadata` coincides with this spec-side description whenever the
buffer holds the whole stream. -/
theorem c5_metadata_stream (input : Nat → Nat) (offset len : Nat)
    (h : offset + 4 + 130 * ((readU32 input offset + 63) / 64) ≤ len) :
    DecodeMetadata input offset len = specMetaStream input offset := by
  unfold DecodeMetadata specMetaStream
  exact metaLoop_eq_spec input len _ (offset + 4) (by omega)

/-- Claim C5 witness: a concrete single-block stream whose header nibble is
15 (raw 16-bit block). -/
theorem c5_metadata_stream_witness :
    DecodeMetadata c5wInput 0 134 = specMetaStream c5wInput 0 :=
  c5_metadata_stream c5wInput 0 134 (by decide)

theorem keysOf_append (m : List (String × String)) (e : String × String) :
    keysOf (m ++ [e]) = keysOf m ++ [e.1] := by
  simp [keysOf]

theorem keysOf_length (m : List (String × String)) : (keysOf m).length = m.length := by
  simp [keysOf]

theorem keysOf_filter (m : List (String × String)) (k : String) :
    keysOf (m.filter fun e => e.1 ≠ k) = (keysOf m).filter fun a => a ≠ k := by
  induction m with
  | nil => rfl
  | cons e t ih =>
    by_cases h : e.1 = k <;> simp [keysOf, List.filter_cons, h] <;> simpa [keysOf] using ih

theorem cacheInsert_inv (K : Nat) (hK : 1 ≤ K) (s : CacheState) (p b : String)
    (hInv : cacheInv K s) (hp : p ∉ keysOf s.map) :
    cacheInv K (cacheInsert K s p b) := by
  obtain ⟨hnd, hperm, hle⟩ := hInv
  have hlen : (keysOf s.map).length = s.order.length := hperm.length_eq
  have hmaplen : s.map.length = s.order.length := by rw [← keysOf_length]; exact hlen
  have hpord : p ∉ s.order := fun h => hp (hperm.symm.subset h)
  by_cases hcap : K ≤ s.map.length
  · obtain ⟨f, rest, hfr⟩ : ∃ f rest, s.order = f :: rest := by
      cases ho : s.order with
      | nil =>
        rw [ho] at hmaplen
        simp only [List.length_nil] at hmaplen
        exact absurd hcap (by omega)
      | cons f rest => exact ⟨f, rest, rfl⟩
    have hndr : rest.Nodup := by rw [hfr] at hnd; exact hnd.of_cons
    have hfnr : f ∉ rest := by rw [hfr] at hnd; exact (List.nodup_cons.mp hnd).1
    simp only [cacheInsert, cacheEvict, if_pos hcap, hfr]
    simp only [List.headD_cons, List.tail_cons]
    have hfilter : keysOf (s.map.filter fun e => e.1 ≠ f) =
        (keysOf s.map).filter fun a => a ≠ f :=
      keysOf_filter s.map f
    have hpf : ((keysOf s.map).filter fun a => a ≠ f).Perm (rest.filter fun a => a ≠ f) := by
      have h2 := hperm.filter (fun a => decide (a ≠ f))
      rw [hfr] at h2
      simpa [List.filter_cons] using h2
    have hrest_eq : (rest.filter fun a => a ≠ f) = rest :=
      List.filter_eq_self.mpr fun a ha => by
        simp only [decide_eq_true_iff]
        exact fun h => hfnr (h ▸ ha)
    rw [hrest_eq] at hpf
    refine ⟨?_, ?_, ?_⟩
    · rw [List.nodup_append]
      refine ⟨hndr, List.nodup_singleton p, ?_⟩
      intro a ha hb
      simp only [List.mem_singleton] at hb
      subst hb
      exact hpord (hfr ▸ List.mem_cons_of_mem f ha)
    · rw [keysOf_append, hfilter]
      exact hpf.append_right [p]
    · have h1 : (s.map.filter fun e => e.1 ≠ f).length = rest.length := by
        rw [← keysOf_length, hfilter]
        exact hpf.length_eq
      have h2 : rest.length + 1 = s.order.length := by rw [hfr]; rfl
      simp only [List.length_append, List.length_cons, List.length_nil, h1]
      omega
  · simp only [cacheInsert, if_neg hcap]
    refine ⟨?_, ?_, ?_⟩
    · rw [List.nodup_append]
      refine ⟨hnd, List.nodup_singleton p, ?_⟩
      intro a ha hb
      simp only [List.mem_singleton] at hb
      subst hb
      exact hpord ha
    · rw [keysOf_append]
      exact hperm.append_right [p]
    · simp only [List.length_append, List.length_cons, List.length_nil]
      omega

theorem runInserts_inv (K : Nat) (hK : 1 ≤ K) :
    ∀ l s, cacheInv K s → goodRunB K s l = true → cacheInv K (runInserts K s l) := by
  intro l
  induction l with
  | nil => intro s h _; exact h
  | cons e rest ih =>
    intro s h hg
    obtain ⟨p, b⟩ := e
    simp only [goodRunB, Bool.and_eq_true] at hg
    obtain ⟨hc, hg2⟩ := hg
    have hp : p ∉ keysOf s.map := by simpa using hc
    simp only [runInserts]
    exact ih _ (cacheInsert_inv K hK s p b h hp) hg2

theorem runInserts_no_evict (K : Nat) :
    ∀ l s, s.map.length + l.length ≤ K →
      runInserts K s l = { map := s.map ++ l, order := s.order ++ keysOf l } := by
  intro l
  induction l with
  | nil => intro s h; simp [runInserts, keysOf]
  | cons e rest ih =>
    intro s h
    obtain ⟨p, b⟩ := e
    have h2 : s.map.length + rest.length + 1 ≤ K := by
      have h3 := h
      simp only [List.length_cons] at h3
      omega
    simp only [runInserts]
    have hcap : ¬K ≤ s.map.length := by omega
    rw [show cacheInsert K s p b = { map := s.map ++ [(p, b)], order := s.order ++ [p] } from by
      simp only [cacheInsert, if_neg hcap]]
    rw [ih _ (by simp only [List.length_append, List.length_cons, List.length_nil]; omega)]
    have e1 : (s.map ++ [(p, b)]) ++ rest = s.map ++ (p, b) :: rest := by
      rw [List.append_assoc, List.singleton_append]
    have e2 : (s.order ++ [p]) ++ keysOf rest = s.order ++ keysOf ((p, b) :: rest) := by
      rw [List.append_assoc, List.singleton_append]
      simp [keysOf]
    rw [e1, e2]

theorem runInserts_append (K : Nat) :
    ∀ l1 l2 s, runInserts K s (l1 ++ l2) = runInserts K (runInserts K s l1) l2 := by
  intro l1
  induction l1 with
  | nil => intro l2 s; rfl
  | cons e t ih =>
    intro l2 s
    obtain ⟨p, b⟩ := e
    simp only [List.cons_append, runInserts]
    exact ih l2 _

/-- Claim C7: for the capacity constants of both variants (K = 5 in
mcraw-mounter-fuse.cpp, K = 10 in example.cpp), assuming callers only
insert after a lookup miss, the cache invariant is preserved: the FIFO has
no duplicates, its entries are exactly the map's keys (so map size equals
FIFO length and every key occurs once in the FIFO), and the map holds at
most K entries; and after K + 1 inserts of pairwise-distinct keys into an
empty cache the first inserted key is absent, the insert at capacity having
evicted the oldest entry. -/
theorem c7_cache (K : Nat)
    (hK : K = MAX_CACHE_FRAMES_fuse ∨ K = MAX_CACHE_FRAMES_example) :
    (∀ l s, cacheInv K s → goodRunB K s l = true → cacheInv K (runInserts K s l)) ∧
    (∀ l, (keysOf l).Nodup → l.length = K + 1 →
      (keysOf l).headD "" ∉ keysOf (runInserts K ⟨[], []⟩ l).map) := by
  have hK1 : 1 ≤ K := by
    rcases hK with h | h <;> simp [h, MAX_CACHE_FRAMES_fuse, MAX_CACHE_FRAMES_example]
  constructor
  · exact runInserts_inv K hK1
  · intro l hnd hlen
    have hne : l ≠ [] := by
      intro h0
      rw [h0] at hlen
      simp at hlen
    obtain ⟨l0, e, rfl⟩ : ∃ l0 e, l = l0 ++ [e] :=
      ⟨l.dropLast, l.getLast hne, (List.dropLast_append_getLast hne).symm⟩
    obtain ⟨p, b⟩ := e
    have hl0 : l0.length = K := by
      simp only [List.length_append, List.length_cons, List.length_nil] at hlen
      omega
    obtain ⟨f, t, hft⟩ : ∃ f t, keysOf l0 = f :: t := by
      cases h0 : keysOf l0 with
      | nil =>
        have hz : l0.length = 0 := by rw [← keysOf_length, h0]; rfl
        exact absurd hl0 (by omega)
      | cons f t => exact ⟨f, t, rfl⟩
    rw [runInserts_append, runInserts_no_evict K l0 ⟨[], []⟩ (by simp [hl0])]
    simp only [List.nil_append, runInserts]
    have hcap2 : K ≤ l0.length := by omega
    rw [show cacheInsert K ⟨l0, keysOf l0⟩ p b =
        { map := (l0.filter fun e => e.1 ≠ (keysOf l0).headD "") ++ [(p, b)]
          order := (keysOf l0).tail ++ [p] } from by
      simp only [cacheInsert, cacheEvict, if_pos hcap2]]
    rw [keysOf_append] at hnd
    simp only [keysOf_append, keysOf_filter]
    rw [hft] at hnd ⊢
    simp only [List.cons_append, List.headD_cons] at hnd ⊢
    rw [List.nodup_cons] at hnd
    have hff : ((f :: t).filter fun a => a ≠ f) = t.filter fun a => a ≠ f := by
      simp [List.filter_cons]
    rw [hff]
    intro hmem
    rw [List.mem_append] at hmem
    rcases hmem with hmem | hmem
    · have hdec := List.of_mem_filter hmem
      simp at hdec
    · simp only [List.mem_singleton] at hmem
      subst hmem
      exact hnd.1 (List.mem_append.mpr (Or.inr (List.mem_singleton.mpr rfl)))

/-- Concrete insert sequence for the C7 witness: six distinct keys. -/
def c7run : List (String × String) :=
  [("a", "1"), ("b", "2"), ("c", "3"), ("d", "4"), ("e", "5"), ("f", "6")]

/-- Claim C7 witness: after K + 1 = 6 distinct inserts at the fuse variant's
capacity 5, the first inserted key has been evicted. -/
theorem c7_cache_witness :
    (keysOf c7run).headD "" ∉ keysOf (runInserts 5 ⟨[], []⟩ c7run).map :=
  (c7_cache 5 (Or.inl rfl)).2 c7run (by decide) (by decide)

theorem takeWhile_append_slash (base fname : List Char) (h : '/' ∉ base) :
    ((base ++ '/' :: fname).takeWhile fun c => c ≠ '/') = base := by
  induction base with
  | nil => simp
  | cons a t ih =>
    have ha : a ≠ '/' := by
      intro he
      exact h (by rw [he]; exact List.mem_cons_self _ _)
    have ht : '/' ∉ t := fun hm => h (List.mem_cons_of_mem a hm)
    simp only [List.cons_append, List.takeWhile_cons]
    rw [if_pos (by simp [ha])]
    rw [ih ht]

theorem dropWhile_append_slash (base fname : List Char) (h : '/' ∉ base) :
    ((base ++ '/' :: fname).dropWhile fun c => c ≠ '/') = '/' :: fname := by
  induction base with
  | nil => simp
  | cons a t ih =>
    have ha : a ≠ '/' := by
      intro he
      exact h (by rw [he]; exact List.mem_cons_self _ _)
    have ht : '/' ∉ t := fun hm => h (List.mem_cons_of_mem a hm)
    simp only [List.cons_append, List.dropWhile_cons]
    rw [if_pos (by simp [ha])]
    exact ih ht

/-- Claim C3 (amended): in the multi-capture variant, a path without a
second component is answered `EISDIR` whether or not the name exists; with
a known capture and a second component, an unknown non-WAV filename gives
`ENOENT`, while the WAV name (audio present or not) and every known frame
file open successfully exactly when the access mode is read-only and give
`EACCES` otherwise.  In the single-capture variant an unknown name — the
root path included — gives `ENOENT`, and known frame files open
successfully exactly when the access mode is read-only. -/
theorem c3_open_modes :
    (∀ (cs : List (List Char × FSCtx)) (rest : List Char) (flags : Nat),
      rest ≠ [] → '/' ∉ rest → fs_open_multi cs ('/' :: rest) flags = -EISDIR) ∧
    (∀ cs base ctx fname flags, lookupCtx cs base = some ctx → '/' ∉ base →
      fname ≠ ctx.baseName ++ ".wav".toList → fname ∉ ctx.filenames →
      fs_open_multi cs ('/' :: (base ++ '/' :: fname)) flags = -ENOENT) ∧
    (∀ cs base ctx fname flags, lookupCtx cs base = some ctx → '/' ∉ base →
      (fname = ctx.baseName ++ ".wav".toList ∨ fname ∈ ctx.filenames) →
      fs_open_multi cs ('/' :: (base ++ '/' :: fname)) flags =
        if flags &&& 3 = 0 then 0 else -EACCES) ∧
    (∀ (fns : List (List Char)) (p : List Char) (flags : Nat), p.tail ∉ fns →
      fs_open_single fns p flags = -ENOENT) ∧
    (∀ (fns : List (List Char)) (p : List Char) (flags : Nat), p.tail ∈ fns →
      fs_open_single fns p flags = if flags &&& 3 = 0 then 0 else -EACCES) := by
  refine ⟨?_, ?_, ?_, ?_, ?_⟩
  · intro cs rest flags hne hns
    have hlp : 0 < rest.length := List.length_pos.mpr hne
    simp only [fs_open_multi, List.tail_cons, List.headD_cons]
    rw [if_neg (by rw [not_or]; exact ⟨by simp only [List.length_cons]; omega, by simp⟩)]
    rw [if_pos hns]
  · intro cs base ctx fname flags hlk hnb hwav hnf
    have hmem : '/' ∈ base ++ '/' :: fname :=
      List.mem_append.mpr (Or.inr (List.mem_cons_self _ _))
    have hne2 : base ++ '/' :: fname ≠ [] := by
      intro h0
      rw [h0] at hmem
      exact List.not_mem_nil '/' hmem
    have hlp : 0 < (base ++ '/' :: fname).length := List.length_pos.mpr hne2
    simp only [fs_open_multi, List.tail_cons, List.headD_cons]
    rw [if_neg (by rw [not_or]; exact ⟨by simp only [List.length_cons]; omega, by simp⟩)]
    rw [if_neg (not_not_intro hmem)]
    simp only [takeWhile_append_slash base fname hnb, dropWhile_append_slash base fname hnb,
      List.tail_cons, hlk]
    rw [if_neg hwav, if_pos hnf]
  · intro cs base ctx fname flags hlk hnb hok
    have hmem : '/' ∈ base ++ '/' :: fname :=
      List.mem_append.mpr (Or.inr (List.mem_cons_self _ _))
    have hne2 : base ++ '/' :: fname ≠ [] := by
      intro h0
      rw [h0] at hmem
      exact List.not_mem_nil '/' hmem
    have hlp : 0 < (base ++ '/' :: fname).length := List.length_pos.mpr hne2
    simp only [fs_open_multi, List.tail_cons, List.headD_cons]
    rw [if_neg (by rw [not_or]; exact ⟨by simp only [List.length_cons]; omega, by simp⟩)]
    rw [if_neg (not_not_intro hmem)]
    simp only [takeWhile_append_slash base fname hnb, dropWhile_append_slash base fname hnb,
      List.tail_cons, hlk]
    by_cases hfw : fname = ctx.baseName ++ ".wav".toList
    · rw [if_pos hfw]
    · rcases hok with hok | hok
      · exact absurd hok hfw
      · rw [if_neg hfw, if_neg (not_not_intro hok)]
  · intro fns p flags hmem
    simp [fs_open_single, hmem]
  · intro fns p flags hmem
    by_cases hf : flags &&& 3 = 0 <;> simp [fs_open_single, hmem, hf]

/-- A concrete mounted capture for the C3 theorems. -/
def c3ctx : List (List Char × FSCtx) :=
  [("cap".toList,
    { filenames := ["cap_000000.dng".toList], audioSize := 0, baseName := "cap".toList })]

/-- Claim C3 witness: the EISDIR branch of the multi-capture variant and the
ENOENT branch of the single-capture variant at concrete paths. -/
theorem c3_open_modes_witness :
    fs_open_multi c3ctx ('/' :: "nonexistent".toList) 0 = -EISDIR ∧
    fs_open_single [] "/x".toList 0 = -ENOENT := by
  constructor
  · exact c3_open_modes.1 c3ctx "nonexistent".toList 0 (by decide) (by decide)
  · exact c3_open_modes.2.2.2.1 [] "/x".toList 0 (by decide)

/-- Claim C3 counterexample: in the multi-capture variant, a read-only
`open("/nonexistent")` — an unknown path — returns `EISDIR`, not the
`ENOENT` the claim requires. -/
theorem c3_counterexample :
    fs_open_multi c3ctx "/nonexistent".toList 0 = -EISDIR ∧ -EISDIR ≠ -ENOENT := by decide

/-- Claim C8: for every offset and size, the byte-range copy of `fs_read`
(identical in the DNG and WAV branches of both variants) returns exactly
`min(size, blob_len - offset)` bytes when `offset < blob_len` and 0 bytes
otherwise, and the returned bytes equal `blob[offset .. offset + returned]`. -/
theorem c8_read_range (data : List Nat) (offset size : Nat) :
    (fs_read_copy data offset size).length =
      (if offset < data.length then min size (data.length - offset) else 0) ∧
    fs_read_copy data offset size =
      (data.drop offset).take ((fs_read_copy data offset size).length) := by
  by_cases h : data.length ≤ offset
  · rw [fs_read_copy, if_pos h]
    constructor
    · rw [if_neg (by omega)]
      rfl
    · simp
  · have hl : ((data.drop offset).take (min size (data.length - offset))).length =
        min size (data.length - offset) := by
      rw [List.length_take, List.length_drop]
      exact Nat.min_eq_left (Nat.min_le_right _ _)
    rw [fs_read_copy, if_neg h]
    constructor
    · rw [hl, if_pos (by omega)]
    · rw [hl]
